import Mathlib

/-!
Verification development for the cryptdir repository: a shallow embedding of
its data model and operations, with theorems settling the stated properties.

Bytes are modelled as `Nat` (with explicit `% 256`-style bounds only where
overflow matters), strings as `String` or `List Char`, fallible operations as
`Option`, and randomness as explicit input streams.
-/

set_option maxHeartbeats 1000000

namespace Cryptdir

/-! Part: cryptoUtils.mjs -/

/-- Default password characters (`defaultChars` in cryptoUtils.mjs). -/
def defaultChars : List Char :=
  "0123456789ABCDEFGHIJKLMNOPQRSTUVWXYZabcdefghijklmnopqrstuvwxyz!$%&?".data

/-- Source `generatePwd(length, chars)`: one alphabet character per random 32-bit unit
from `randomFillSync(new Uint32Array(length))`; the random units are modelled
as the explicit stream `randoms`, and `chars[x % chars.length]` as `getD`. -/
def generatePwd (length : Nat) (chars : List Char) (randoms : Nat → Nat) : List Char :=
  (List.range length).map fun i => chars.getD (randoms i % chars.length) ' '

/-- Source `getUuid(value)`: `value.replaceAll('-', '').toUpperCase()`, at the
character-list level (`replaceAll` of a single character by the empty string
is exactly a filter). -/
def getUuid (value : List Char) : List Char :=
  (value.filter fun c => c != '-').map Char.toUpper

/-- The `NIL` constant of the external uuid package (RFC 4122 nil UUID). -/
def nilUuidSource : List Char := "00000000-0000-0000-0000-000000000000".data

/-- Source `getNilUuid()`: `getUuid(NIL_UUID)`. -/
def getNilUuid : List Char := getUuid nilUuidSource

/-- Sixteen random bytes feeding version-4 UUID generation. -/
structure Bytes16 where
  b0 : Nat
  b1 : Nat
  b2 : Nat
  b3 : Nat
  b4 : Nat
  b5 : Nat
  b6 : Nat
  b7 : Nat
  b8 : Nat
  b9 : Nat
  b10 : Nat
  b11 : Nat
  b12 : Nat
  b13 : Nat
  b14 : Nat
  b15 : Nat

/-- Lowercase hex digits used by the uuid package's string form. -/
def hexDigitsLower : List Char := "0123456789abcdef".data

/-- One hex digit of a nibble. -/
def hexChar (n : Nat) : Char := hexDigitsLower.getD (n % 16) '0'

/-- Two hex digits of a byte. -/
def hexPair (b : Nat) : List Char := [hexChar (b / 16), hexChar b]

/-- Modelled external dependency: the uuid package's `v4()` under RFC 4122.
Byte 6 carries the fixed version nibble (`0x40 | (r & 0x0f)`, i.e.
`64 + r % 16`) and byte 8 the variant bits (`0x80 | (r & 0x3f)`, i.e.
`128 + r % 64`); the textual form is lowercase hex grouped 4-2-2-2-6. -/
def uuidv4 (x : Bytes16) : List Char :=
  hexPair x.b0 ++ hexPair x.b1 ++ hexPair x.b2 ++ hexPair x.b3 ++ ['-'] ++
  hexPair x.b4 ++ hexPair x.b5 ++ ['-'] ++
  hexPair (64 + x.b6 % 16) ++ hexPair x.b7 ++ ['-'] ++
  hexPair (128 + x.b8 % 64) ++ hexPair x.b9 ++ ['-'] ++
  hexPair x.b10 ++ hexPair x.b11 ++ hexPair x.b12 ++ hexPair x.b13 ++
  hexPair x.b14 ++ hexPair x.b15

/-- Removal of the first occurrence of `pat`, modelling the JavaScript
single-replacement `s.replace(pat, '')` used by `#getRelativePath`. -/
def removeFirst (pat : List Char) : List Char → List Char
  | [] => []
  | c :: rest =>
    if pat.isPrefixOf (c :: rest) then (c :: rest).drop pat.length
    else c :: removeFirst pat rest

/-- Source `CryptDir.#getRelativePath`: `fullName.replace(srcDir + '\\', '')`. -/
def getRelativePath (srcDir fullName : List Char) : List Char :=
  removeFirst (srcDir ++ ['\\']) fullName

/-! Helper lemmas about `removeFirst`. -/

theorem mem_of_isPrefixOf (pat : List Char) (c : Char) (hc : c ∈ pat) :
    ∀ s : List Char, pat.isPrefixOf s = true → c ∈ s := by
  induction pat generalizing c with
  | nil => simp at hc
  | cons p pt ih =>
    intro s h
    cases s with
    | nil => simp [List.isPrefixOf] at h
    | cons a tail =>
      simp only [List.isPrefixOf, Bool.and_eq_true, beq_iff_eq] at h
      rcases List.mem_cons.mp hc with hcp | hcpt
      · exact List.mem_cons.mpr (Or.inl (by rw [hcp, h.1]))
      · exact List.mem_cons.mpr (Or.inr (ih c hcpt tail h.2))

theorem isPrefixOf_append_self (pat rest : List Char) :
    pat.isPrefixOf (pat ++ rest) = true := by
  induction pat with
  | nil => cases rest <;> rfl
  | cons p pt ih => simp [List.isPrefixOf, ih]

theorem removeFirst_eq_self (pat s : List Char) (c : Char) (hc : c ∈ pat) (hs : c ∉ s) :
    removeFirst pat s = s := by
  induction s with
  | nil => simp [removeFirst]
  | cons a rest ih =>
    have hpre : ¬ (pat.isPrefixOf (a :: rest) = true) := by
      intro h
      exact hs (mem_of_isPrefixOf pat c hc _ h)
    have hrest : c ∉ rest := fun h => hs (List.mem_cons_of_mem _ h)
    simp [removeFirst, hpre, ih hrest]

theorem removeFirst_pref (pat rest : List Char) : removeFirst pat (pat ++ rest) = rest := by
  cases pat with
  | nil => cases rest <;> simp [removeFirst]
  | cons p pt =>
    have hpre : (p :: pt).isPrefixOf ((p :: pt) ++ rest) = true :=
      isPrefixOf_append_self _ _
    show removeFirst (p :: pt) (p :: (pt ++ rest)) = rest
    have hform : p :: (pt ++ rest) = (p :: pt) ++ rest := rfl
    simp only [removeFirst, hform, hpre, if_pos]
    exact List.drop_left _ _

/-- C10: the recorded relative path is the full dirent name with the first
occurrence of the source directory followed by a backslash removed; a
forward-slash (POSIX) full name, containing no backslash, is returned
unchanged, absolute source prefix included. -/
theorem getRelativePath_spec (srcDir rest fullName : List Char) :
    getRelativePath srcDir (srcDir ++ '\\' :: rest) = rest ∧
    ('\\' ∉ fullName → getRelativePath srcDir fullName = fullName) := by
  constructor
  · have hform : srcDir ++ '\\' :: rest = (srcDir ++ ['\\']) ++ rest := by simp
    rw [getRelativePath, hform, removeFirst_pref]
  · intro h
    exact removeFirst_eq_self _ _ '\\' (by simp) h

/-- Witness for C10 at a concrete POSIX-joined full name. -/
theorem getRelativePath_spec_witness :
    getRelativePath ['a'] ['a', '/', 'b'] = ['a', '/', 'b'] :=
  (getRelativePath_spec ['a'] [] ['a', '/', 'b']).2 (by decide)

/-- C9 counterexample: the default alphabet does not have 66 characters. -/
theorem defaultChars_length_ne_66 : ¬ defaultChars.length = 66 := by decide

/-- C9 (amended): `generatePwd` with default arguments returns a string of
length exactly 48 over the default 67-character alphabet, one alphabet
character per random unit; for every requested length n the result has
length n over that alphabet. -/
theorem generatePwd_spec (randoms : Nat → Nat) (n : Nat) :
    (generatePwd 48 defaultChars randoms).length = 48 ∧
    (generatePwd n defaultChars randoms).length = n ∧
    (∀ c ∈ generatePwd n defaultChars randoms, c ∈ defaultChars) ∧
    defaultChars.length = 67 := by
  refine ⟨by simp [generatePwd], by simp [generatePwd], ?_, by decide⟩
  intro c hc
  simp only [generatePwd, List.mem_map, List.mem_range] at hc
  obtain ⟨i, _, hi⟩ := hc
  have hlt : randoms i % defaultChars.length < defaultChars.length :=
    Nat.mod_lt _ (by decide)
  rw [← hi, List.getD_eq_getElem _ _ hlt]
  exact List.getElem_mem _

/-- C8: the sentinel identifier is the canonical all-zero uppercase,
hyphen-free form, and no output of the version-4 generator ever equals it
(the fixed version nibble of byte 6 makes character 12 a '4'). -/
theorem getUuid_never_nil :
    getNilUuid = List.replicate 32 '0' ∧
    ∀ x : Bytes16, getUuid (uuidv4 x) ≠ getNilUuid := by
  refine ⟨by decide, ?_⟩
  intro x h
  have hq : (64 + x.b6 % 16) / 16 = 4 := by omega
  have hmem : '4' ∈ getUuid (uuidv4 x) := by
    apply List.mem_map.mpr
    refine ⟨hexChar 4, ?_, by decide⟩
    apply List.mem_filter.mpr
    refine ⟨?_, by decide⟩
    simp [uuidv4, hexPair, hq]
  rw [h] at hmem
  have hnil : getNilUuid = List.replicate 32 '0' := by decide
  rw [hnil] at hmem
  exact absurd (List.eq_of_mem_replicate hmem) (by decide)

/-! Part: aesFileCryptor.mjs (StreamCipherPipeline)

The AES block permutation, SHA-256 and gzip are abstract parameters (with the
inverse properties real AES-256 and gzip satisfy); the CBC chaining, PKCS#7
padding applied by Node's `aes256` cipher, and the IV-prefixed blob format
are modelled concretely from the source.
-/

/-- XOR of two byte sequences. -/
def xorBytes (a b : List Nat) : List Nat := List.zipWith Nat.xor a b

/-- PKCS#7 padding to the 16-byte AES block size, as Node's cipher applies
before CBC encryption: k = 16 - len % 16 bytes of value k are appended. -/
def pad16 (data : List Nat) : List Nat :=
  data ++ List.replicate (16 - data.length % 16) (16 - data.length % 16)

/-- PKCS#7 unpadding: the last byte names the pad length. -/
def unpad16 (data : List Nat) : List Nat :=
  data.take (data.length - data.getLastD 0)

/-- CBC-mode encryption over an abstract block permutation `E`:
each plaintext block is XORed with the previous ciphertext block (initially
the IV) before being enciphered. -/
def cbcEncrypt (E : List Nat → List Nat) (prev : List Nat) :
    List (List Nat) → List (List Nat)
  | [] => []
  | b :: bs =>
    let c := E (xorBytes b prev)
    c :: cbcEncrypt E c bs

/-- CBC-mode decryption over the inverse permutation `D`. -/
def cbcDecrypt (D : List Nat → List Nat) (prev : List Nat) :
    List (List Nat) → List (List Nat)
  | [] => []
  | c :: cs => xorBytes (D c) prev :: cbcDecrypt D c cs

/-- Split a byte sequence into 16-byte AES blocks. -/
def chunks16 : List Nat → List (List Nat)
  | [] => []
  | a :: l => ((a :: l).take 16) :: chunks16 ((a :: l).drop 16)
termination_by l => l.length
decreasing_by simp [List.length_drop]; omega

/-- Source `#getCipherKey`: the cipher key is SHA-256 of the passphrase (SHA-256
abstract). -/
def getCipherKey (sha256 : String → List Nat) (password : String) : List Nat :=
  sha256 password

/-- Source `encryptStreamToFile`: gzip the plaintext, CBC-encrypt it under
SHA-256(passphrase) with the random 16-byte IV, and write the IV as the blob
prefix (the AttachInitVect transform) followed by the ciphertext. -/
def encryptBlob (E : List Nat → List Nat → List Nat) (sha256 : String → List Nat)
    (gz : List Nat → List Nat) (password : String) (initVect content : List Nat) :
    List Nat :=
  initVect ++ (cbcEncrypt (E (getCipherKey sha256 password)) initVect
    (chunks16 (pad16 (gz content)))).flatten

/-- Source `decryptFileToStream` on a present blob: the first 16 bytes are read as
the IV, the remainder is deciphered under SHA-256(passphrase) and then
unzipped. -/
def decryptBlob (D : List Nat → List Nat → List Nat) (sha256 : String → List Nat)
    (ug : List Nat → List Nat) (password : String) (blob : List Nat) : List Nat :=
  ug (unpad16 (cbcDecrypt (D (getCipherKey sha256 password)) (blob.take 16)
    (chunks16 (blob.drop 16))).flatten)

/-! Helper lemmas for the round-trip. -/

theorem xorBytes_cancel (a b : List Nat) (h : a.length = b.length) :
    xorBytes (xorBytes a b) b = a := by
  induction a generalizing b with
  | nil => simp [xorBytes]
  | cons x xs ih =>
    cases b with
    | nil => simp at h
    | cons y ys =>
      have h' : xs.length = ys.length := by simpa using h
      simp only [xorBytes, List.zipWith_cons_cons]
      refine congrArg₂ (· :: ·) (Nat.xor_cancel_right _ _) ?_
      exact ih ys h'

theorem xorBytes_length (a b : List Nat) :
    (xorBytes a b).length = min a.length b.length := by
  simp [xorBytes]

theorem cbcEncrypt_lengths (E : List Nat → List Nat)
    (hElen : ∀ b, b.length = 16 → (E b).length = 16)
    (bs : List (List Nat)) : ∀ (prev : List Nat), prev.length = 16 →
    (∀ b ∈ bs, b.length = 16) →
    ∀ c ∈ cbcEncrypt E prev bs, c.length = 16 := by
  induction bs with
  | nil => intro prev _ _ c hc; simp [cbcEncrypt] at hc
  | cons b rest ih =>
    intro prev hprev hbs c hc
    have hb : b.length = 16 := hbs b (by simp)
    have hx : (xorBytes b prev).length = 16 := by
      rw [xorBytes_length, hb, hprev]; simp
    simp only [cbcEncrypt, List.mem_cons] at hc
    rcases hc with hc | hc
    · rw [hc]; exact hElen _ hx
    · exact ih (E (xorBytes b prev)) (hElen _ hx)
        (fun x hx2 => hbs x (by simp [hx2])) c hc

theorem cbc_roundtrip (E D : List Nat → List Nat)
    (hED : ∀ b, b.length = 16 → D (E b) = b)
    (hElen : ∀ b, b.length = 16 → (E b).length = 16)
    (bs : List (List Nat)) : ∀ (prev : List Nat), prev.length = 16 →
    (∀ b ∈ bs, b.length = 16) →
    cbcDecrypt D prev (cbcEncrypt E prev bs) = bs := by
  induction bs with
  | nil => intro prev _ _; simp [cbcEncrypt, cbcDecrypt]
  | cons b rest ih =>
    intro prev hprev hbs
    have hb : b.length = 16 := hbs b (by simp)
    have hx : (xorBytes b prev).length = 16 := by
      rw [xorBytes_length, hb, hprev]; simp
    simp only [cbcEncrypt, cbcDecrypt]
    rw [hED _ hx, xorBytes_cancel b prev (by omega)]
    refine congrArg (b :: ·) ?_
    exact ih (E (xorBytes b prev)) (hElen _ hx)
      (fun x hx2 => hbs x (by simp [hx2]))

theorem chunks16_join (bs : List (List Nat)) (hbs : ∀ b ∈ bs, b.length = 16) :
    chunks16 bs.flatten = bs := by
  induction bs with
  | nil => simp [chunks16]
  | cons b rest ih =>
    have hb : b.length = 16 := hbs b (by simp)
    cases b with
    | nil => simp at hb
    | cons a l =>
      have hjoin : ((a :: l) :: rest).flatten = a :: (l ++ rest.flatten) := by simp
      rw [hjoin]
      have hcons : a :: (l ++ rest.flatten) = (a :: l) ++ rest.flatten := rfl
      have htake : (a :: (l ++ rest.flatten)).take 16 = a :: l := by
        rw [hcons, ← hb]; exact List.take_left _ _
      have hdrop : (a :: (l ++ rest.flatten)).drop 16 = rest.flatten := by
        rw [hcons, ← hb]; exact List.drop_left _ _
      rw [chunks16, htake, hdrop, ih (fun x hx => hbs x (by simp [hx]))]

theorem flatten_chunks16 (l : List Nat) : (chunks16 l).flatten = l := by
  induction l using chunks16.induct with
  | case1 => simp [chunks16]
  | case2 a l ih =>
    rw [chunks16, List.flatten_cons, ih, List.take_append_drop]

theorem pad16_length_dvd (data : List Nat) : 16 ∣ (pad16 data).length := by
  simp only [pad16, List.length_append, List.length_replicate]
  omega

theorem chunks16_blocks (l : List Nat) (h : 16 ∣ l.length) :
    ∀ c ∈ chunks16 l, c.length = 16 := by
  induction l using chunks16.induct with
  | case1 => simp [chunks16]
  | case2 a l ih =>
    intro c hc
    have hlen : (a :: l).length = l.length + 1 := by simp
    rw [chunks16] at hc
    simp only [List.mem_cons] at hc
    rcases hc with hc | hc
    · rw [hc, List.length_take]
      simp only [hlen] at h ⊢
      omega
    · refine ih ?_ c hc
      rw [List.length_drop]
      simp only [hlen] at h ⊢
      omega

theorem unpad16_pad16 (data : List Nat) : unpad16 (pad16 data) = data := by
  have hmod : data.length % 16 < 16 := Nat.mod_lt _ (by decide)
  set k := 16 - data.length % 16 with hk
  have hk1 : 1 ≤ k := by omega
  obtain ⟨m, hm⟩ : ∃ m, k = m + 1 := ⟨k - 1, by omega⟩
  have hlast : (data ++ List.replicate k k).getLastD 0 = k := by
    rw [hm, List.replicate_succ', ← List.append_assoc]
    simp [List.getLastD_concat]
  have hlen : (data ++ List.replicate k k).length = data.length + k := by simp
  rw [unpad16, pad16, ← hk, hlast, hlen]
  have harith : data.length + k - k = data.length := by omega
  rw [harith, List.take_left' rfl]

/-- C1: for every byte content, passphrase and 16-byte IV, decrypting with
the same passphrase the blob produced by encryption (gzip, then AES-256-CBC
with PKCS#7 padding under key SHA-256(passphrase), IV written as the 16-byte
blob prefix and read back as exactly the first 16 bytes) yields the content,
given the inverse properties of the abstract AES block permutation and of
gzip. -/
theorem encrypt_decrypt_roundtrip
    (E D : List Nat → List Nat → List Nat) (sha256 : String → List Nat)
    (gz ug : List Nat → List Nat)
    (hED : ∀ k b, b.length = 16 → D k (E k b) = b)
    (hElen : ∀ k b, b.length = 16 → (E k b).length = 16)
    (hgz : ∀ x, ug (gz x) = x)
    (P : String) (C initVect : List Nat) (hiv : initVect.length = 16) :
    decryptBlob D sha256 ug P (encryptBlob E sha256 gz P initVect C) = C := by
  unfold encryptBlob decryptBlob
  rw [List.take_left' hiv, List.drop_left' hiv]
  have hblocks : ∀ b ∈ chunks16 (pad16 (gz C)), b.length = 16 :=
    chunks16_blocks _ (pad16_length_dvd _)
  have henc : ∀ c ∈ cbcEncrypt (E (getCipherKey sha256 P)) initVect
      (chunks16 (pad16 (gz C))), c.length = 16 :=
    cbcEncrypt_lengths _ (hElen _) _ initVect hiv hblocks
  rw [chunks16_join _ henc,
    cbc_roundtrip _ _ (hED _) (hElen _) _ initVect hiv hblocks,
    flatten_chunks16, unpad16_pad16, hgz]

/-- Witness for C1: the round-trip evaluated with the identity block
permutation and identity compression at concrete content and IV. -/
theorem encrypt_decrypt_roundtrip_witness :
    decryptBlob (fun _ b => b) (fun _ => []) id "pw"
      (encryptBlob (fun _ b => b) (fun _ => []) id "pw" (List.replicate 16 0) [1, 2, 3])
      = [1, 2, 3] :=
  encrypt_decrypt_roundtrip (fun _ b => b) (fun _ b => b) (fun _ => []) id id
    (fun _ _ _ => rfl) (fun _ _ hb => hb) (fun _ => rfl) "pw" [1, 2, 3]
    (List.replicate 16 0) (by simp)

/-! Part: fsDirectory.mjs (Manifest) -/

/-- A PathEntry: `addEntry` pushes `{ path, ...(fileId ? { fileId } : {}) }`,
so the `fileId` key is present exactly for files. -/
structure Dirent where
  path : String
  fileId : Option String
deriving DecidableEq

/-- A FileObject: `{ fileId, fileHash, pwd }`. -/
structure FileObj where
  fileId : String
  fileHash : String
  pwd : String
deriving DecidableEq

/-- The manifest (`FSDirectory`): dirents and files, both initially empty. -/
structure FSDirectory where
  dirents : List Dirent := []
  files : List FileObj := []
deriving DecidableEq

/-- Source `findFileById`: first file whose `fileId` matches. -/
def FSDirectory.findFileById (fsd : FSDirectory) (fileId : String) : Option FileObj :=
  fsd.files.find? fun f => f.fileId == fileId

/-- Source `findFileByHash`: first file whose `fileHash` matches. -/
def FSDirectory.findFileByHash (fsd : FSDirectory) (fileHash : String) : Option FileObj :=
  fsd.files.find? fun f => f.fileHash == fileHash

/-- Source `findDirent`: first dirent whose `path` matches. -/
def FSDirectory.findDirent (fsd : FSDirectory) (path : String) : Option Dirent :=
  fsd.dirents.find? fun d => d.path == path

/-- Source `addEntry(path, fileId, file)`: appends a dirent and, when given, a file. -/
def FSDirectory.addEntry (fsd : FSDirectory) (path : String) (fileId : Option String)
    (file : Option FileObj) : FSDirectory :=
  { dirents := fsd.dirents ++ [⟨path, fileId⟩],
    files := fsd.files ++ file.toList }

/-- Source `getObsoleteDirents(directory)`: entries of `directory` whose
`(path, fileId)` pair does not occur among this manifest's dirents. -/
def FSDirectory.getObsoleteDirents (fsd directory : FSDirectory) : List Dirent :=
  directory.dirents.filter fun d =>
    ! fsd.dirents.any fun e => e.path == d.path && e.fileId == d.fileId

/-- Source `equals(dirents)`: `JSON.stringify(dirents) === JSON.stringify(this.dirents)`;
stringification is injective on dirent records, so this is structural
equality of the dirents sequences (the files are not compared). -/
def FSDirectory.equals (fsd : FSDirectory) (dirents : List Dirent) : Bool :=
  decide (dirents = fsd.dirents)

/-! Part: cryptDir.mjs (SyncEngine) -/

/-- The write decision at the end of `CryptDir.encrypt`:
`if (!this.fsDirectory.equals(entries.dirents)) saveToFile(...)`. -/
def manifestWriteNeeded (fsd : FSDirectory) (loadedDirents : List Dirent) : Bool :=
  ! fsd.equals loadedDirents

/-- Blob identifiers removed by `#removeObsoleteDirents`: for each obsolete
dirent carrying a fileId, the ciphertext is removed exactly when
`findFileById` finds no surviving FileObject for it. -/
def removeObsoleteDirents (fsd prev : FSDirectory) : List String :=
  (fsd.getObsoleteDirents prev).filterMap fun d =>
    match d.fileId with
    | some fid => if (fsd.findFileById fid).isNone then some fid else none
    | none => none

/-- Result of `#getFileData` (`exists` renamed `found`, a keyword). -/
structure FileData where
  found : Bool
  fileId : String
  pwd : String
deriving DecidableEq

/-- State threaded through an encrypt run: the session manifest plus a
counter indexing the fresh-identifier and fresh-secret supplies that model
`getUuid()` and `generatePwd()`. -/
structure EncState where
  fsd : FSDirectory := {}
  ctr : Nat := 0
deriving DecidableEq

/-- Source `#getFileData(currDirectory, fileHash)`: reuse the previous snapshot's
object for this hash when present, otherwise draw a fresh identifier and
secret (advancing the supply counter). -/
def getFileData (uuidGen pwdGen : Nat → String) (prev : FSDirectory) (ctr : Nat)
    (fileHash : String) : FileData × Nat :=
  match prev.findFileByHash fileHash with
  | some f => ({ found := true, fileId := f.fileId, pwd := f.pwd }, ctr)
  | none => ({ found := false, fileId := uuidGen ctr, pwd := pwdGen ctr }, ctr + 1)

/-- The `fileParams` array returned by `#encryptFile`: the fileId for the
dirent and, when a new FileObject was recorded, that object. -/
structure FileParams where
  fileId : String
  newFile : Option FileObj
deriving DecidableEq

/-- Source `#encryptFile(fullName, currDirectory)`: dedup lookup in the session
manifest; on a miss, consult the previous snapshot via `#getFileData` and
encrypt into the store only when it had no object for this hash. The `Bool`
component records whether `encryptFileToFile` ran (the `!exists` branch). -/
def encryptFile (hashF : List Nat → String) (uuidGen pwdGen : Nat → String)
    (prev : FSDirectory) (st : EncState) (content : List Nat) :
    FileParams × Nat × Bool :=
  let fileHash := hashF content
  match st.fsd.findFileByHash fileHash with
  | some file => ({ fileId := file.fileId, newFile := none }, st.ctr, false)
  | none =>
    let fdc := getFileData uuidGen pwdGen prev st.ctr fileHash
    ({ fileId := fdc.1.fileId,
       newFile := some { fileId := fdc.1.fileId, fileHash := fileHash, pwd := fdc.1.pwd } },
     fdc.2, !fdc.1.found)

/-- A source dirent as seen by `#encryptDirent`, already carrying its
relative path; a file carries its byte content (hashed by the abstract
`hashF`, which models the deterministic `calcFileHash`). -/
inductive SrcDirent where
  | dir (relativePath : String)
  | file (relativePath : String) (content : List Nat)
deriving DecidableEq

/-- Source `#encryptDirent`: directories add a plain entry, files go through
`#encryptFile` and add an entry referencing the resulting fileId. -/
def encryptDirent (hashF : List Nat → String) (uuidGen pwdGen : Nat → String)
    (prev : FSDirectory) (st : EncState) : SrcDirent → EncState
  | .dir p => { st with fsd := st.fsd.addEntry p none none }
  | .file p content =>
    let r := encryptFile hashF uuidGen pwdGen prev st content
    { fsd := st.fsd.addEntry p (some r.1.fileId) r.1.newFile, ctr := r.2.1 }

/-- The traversal loop of `CryptDir.encrypt` over the sorted source dirents. -/
def encryptEntries (hashF : List Nat → String) (uuidGen pwdGen : Nat → String)
    (prev : FSDirectory) (st : EncState) (tree : List SrcDirent) : EncState :=
  tree.foldl (encryptDirent hashF uuidGen pwdGen prev) st

/-- A full encrypt run: the session manifest starts empty (a fresh
`FSDirectory`), the previous snapshot `prev` is the loaded `currDirectory`. -/
def encryptRun (hashF : List Nat → String) (uuidGen pwdGen : Nat → String)
    (prev : FSDirectory) (tree : List SrcDirent) : EncState :=
  encryptEntries hashF uuidGen pwdGen prev {} tree

/-- Pairwise distinctness of content hashes among recorded FileObjects. -/
def hashesDistinct (l : List FileObj) : Prop :=
  l.Pairwise fun a b => a.fileHash ≠ b.fileHash

/-! Lemmas about the encrypt run. -/

theorem find?_append_some {α : Type} (p : α → Bool) (l₁ l₂ : List α) (a : α)
    (h : l₁.find? p = some a) : (l₁ ++ l₂).find? p = some a := by
  rw [List.find?_append, h]; rfl

theorem find?_append_none {α : Type} (p : α → Bool) (l₁ l₂ : List α)
    (h : l₁.find? p = none) : (l₁ ++ l₂).find? p = l₂.find? p := by
  rw [List.find?_append, h]; rfl

theorem encryptEntries_nil (hashF : List Nat → String) (uuidGen pwdGen : Nat → String)
    (prev : FSDirectory) (st : EncState) :
    encryptEntries hashF uuidGen pwdGen prev st [] = st := rfl

theorem encryptEntries_cons (hashF : List Nat → String) (uuidGen pwdGen : Nat → String)
    (prev : FSDirectory) (st : EncState) (d : SrcDirent) (rest : List SrcDirent) :
    encryptEntries hashF uuidGen pwdGen prev st (d :: rest) =
      encryptEntries hashF uuidGen pwdGen prev
        (encryptDirent hashF uuidGen pwdGen prev st d) rest := rfl

theorem findFileByHash_step (hashF : List Nat → String) (uuidGen pwdGen : Nat → String)
    (prev : FSDirectory) (st : EncState) (d : SrcDirent) (h : String) (f : FileObj)
    (hf : st.fsd.findFileByHash h = some f) :
    (encryptDirent hashF uuidGen pwdGen prev st d).fsd.findFileByHash h = some f := by
  cases d with
  | dir p =>
    simp only [encryptDirent, FSDirectory.addEntry, FSDirectory.findFileByHash,
      Option.toList_none, List.append_nil]
    exact hf
  | file p content =>
    simp only [encryptDirent, FSDirectory.addEntry, FSDirectory.findFileByHash]
    exact find?_append_some _ _ _ _ hf

theorem findFileByHash_run (hashF : List Nat → String) (uuidGen pwdGen : Nat → String)
    (prev : FSDirectory) (tree : List SrcDirent) :
    ∀ (st : EncState) (h : String) (f : FileObj),
      st.fsd.findFileByHash h = some f →
      (encryptEntries hashF uuidGen pwdGen prev st tree).fsd.findFileByHash h = some f := by
  induction tree with
  | nil => intro st h f hf; rwa [encryptEntries_nil]
  | cons d rest ih =>
    intro st h f hf
    rw [encryptEntries_cons]
    exact ih _ h f (findFileByHash_step hashF uuidGen pwdGen prev st d h f hf)

theorem dirents_step (hashF : List Nat → String) (uuidGen pwdGen : Nat → String)
    (prev : FSDirectory) (st : EncState) (d : SrcDirent) :
    ∃ e : Dirent, (encryptDirent hashF uuidGen pwdGen prev st d).fsd.dirents =
      st.fsd.dirents ++ [e] := by
  cases d with
  | dir p => exact ⟨⟨p, none⟩, rfl⟩
  | file p content =>
    exact ⟨⟨p, some (encryptFile hashF uuidGen pwdGen prev st content).1.fileId⟩, rfl⟩

theorem dirents_getElem_run (hashF : List Nat → String) (uuidGen pwdGen : Nat → String)
    (prev : FSDirectory) (tree : List SrcDirent) :
    ∀ (st : EncState) (k : Nat) (e : Dirent),
      st.fsd.dirents[k]? = some e →
      (encryptEntries hashF uuidGen pwdGen prev st tree).fsd.dirents[k]? = some e := by
  induction tree with
  | nil => intro st k e h; rwa [encryptEntries_nil]
  | cons d rest ih =>
    intro st k e h
    rw [encryptEntries_cons]
    apply ih
    obtain ⟨x, hx⟩ := dirents_step hashF uuidGen pwdGen prev st d
    rw [hx]
    have hk : k < st.fsd.dirents.length := by
      rcases Nat.lt_or_ge k st.fsd.dirents.length with hlt | hge
      · exact hlt
      · rw [List.getElem?_eq_none hge] at h; cases h
    rw [List.getElem?_append_left hk]
    exact h

theorem file_step_spec (hashF : List Nat → String) (uuidGen pwdGen : Nat → String)
    (prev : FSDirectory) (st : EncState) (p : String) (c : List Nat) :
    ∃ r : FileObj,
      (encryptDirent hashF uuidGen pwdGen prev st (.file p c)).fsd.findFileByHash
        (hashF c) = some r ∧
      (encryptDirent hashF uuidGen pwdGen prev st
        (.file p c)).fsd.dirents[st.fsd.dirents.length]? = some ⟨p, some r.fileId⟩ := by
  cases hfind : st.fsd.findFileByHash (hashF c) with
  | some file =>
    have hfind' : List.find? (fun f => f.fileHash == hashF c) st.fsd.files = some file :=
      hfind
    refine ⟨file, ?_, ?_⟩
    · simp only [encryptDirent, encryptFile, FSDirectory.findFileByHash, hfind',
        FSDirectory.addEntry, Option.toList_none, List.append_nil]
    · simp only [encryptDirent, encryptFile, FSDirectory.findFileByHash, hfind',
        FSDirectory.addEntry]
      exact List.getElem?_concat_length _ _
  | none =>
    have hfind' : List.find? (fun f => f.fileHash == hashF c) st.fsd.files = none :=
      hfind
    refine ⟨⟨(getFileData uuidGen pwdGen prev st.ctr (hashF c)).1.fileId, hashF c,
      (getFileData uuidGen pwdGen prev st.ctr (hashF c)).1.pwd⟩, ?_, ?_⟩
    · simp only [encryptDirent, encryptFile, FSDirectory.findFileByHash, hfind',
        FSDirectory.addEntry, Option.toList_some]
      rw [find?_append_none _ _ _ hfind']
      simp
    · simp only [encryptDirent, encryptFile, FSDirectory.findFileByHash, hfind',
        FSDirectory.addEntry]
      exact List.getElem?_concat_length _ _

theorem run_file_entry (hashF : List Nat → String) (uuidGen pwdGen : Nat → String)
    (prev : FSDirectory) (tree : List SrcDirent) :
    ∀ (st : EncState) (i : Nat) (p : String) (c : List Nat),
      tree[i]? = some (.file p c) →
      ∃ r : FileObj,
        (encryptEntries hashF uuidGen pwdGen prev st tree).fsd.findFileByHash
          (hashF c) = some r ∧
        (encryptEntries hashF uuidGen pwdGen prev st
          tree).fsd.dirents[st.fsd.dirents.length + i]? = some ⟨p, some r.fileId⟩ := by
  induction tree with
  | nil => intro st i p c h; simp at h
  | cons d rest ih =>
    intro st i p c h
    rw [encryptEntries_cons]
    cases i with
    | zero =>
      have hd : d = .file p c := by simpa using h
      subst hd
      obtain ⟨r, hrf, hrd⟩ := file_step_spec hashF uuidGen pwdGen prev st p c
      refine ⟨r, findFileByHash_run hashF uuidGen pwdGen prev rest _ _ _ hrf, ?_⟩
      have hstable := dirents_getElem_run hashF uuidGen pwdGen prev rest _ _ _ hrd
      simpa using hstable
    | succ n =>
      have h' : rest[n]? = some (.file p c) := by simpa using h
      obtain ⟨r, hrf, hrd⟩ := ih (encryptDirent hashF uuidGen pwdGen prev st d) n p c h'
      refine ⟨r, hrf, ?_⟩
      obtain ⟨x, hx⟩ := dirents_step hashF uuidGen pwdGen prev st d
      rw [hx] at hrd
      simp only [List.length_append, List.length_singleton] at hrd
      have harith : st.fsd.dirents.length + 1 + n = st.fsd.dirents.length + (n + 1) := by
        omega
      rwa [harith] at hrd

theorem hashesDistinct_step (hashF : List Nat → String) (uuidGen pwdGen : Nat → String)
    (prev : FSDirectory) (st : EncState) (d : SrcDirent)
    (hst : hashesDistinct st.fsd.files) :
    hashesDistinct (encryptDirent hashF uuidGen pwdGen prev st d).fsd.files := by
  cases d with
  | dir p =>
    simpa only [hashesDistinct, encryptDirent, FSDirectory.addEntry, Option.toList_none,
      List.append_nil] using hst
  | file p content =>
    cases hfind : st.fsd.findFileByHash (hashF content) with
    | some file =>
      simpa only [hashesDistinct, encryptDirent, encryptFile, hfind, FSDirectory.addEntry,
        Option.toList_none, List.append_nil] using hst
    | none =>
      have hnone : ∀ f ∈ st.fsd.files, f.fileHash ≠ hashF content := by
        intro f hf
        have hb := List.find?_eq_none.mp hfind f hf
        simpa using hb
      simp only [hashesDistinct, encryptDirent, encryptFile, hfind, FSDirectory.addEntry,
        Option.toList_some]
      rw [List.pairwise_append]
      refine ⟨hst, by simp, ?_⟩
      intro a ha b hb
      simp only [List.mem_singleton] at hb
      subst hb
      exact hnone a ha

theorem hashesDistinct_run (hashF : List Nat → String) (uuidGen pwdGen : Nat → String)
    (prev : FSDirectory) (tree : List SrcDirent) :
    ∀ st : EncState, hashesDistinct st.fsd.files →
      hashesDistinct (encryptEntries hashF uuidGen pwdGen prev st tree).fsd.files := by
  induction tree with
  | nil => intro st h; rwa [encryptEntries_nil]
  | cons d rest ih =>
    intro st h
    rw [encryptEntries_cons]
    exact ih _ (hashesDistinct_step hashF uuidGen pwdGen prev st d h)

theorem filter_hash_single (l : List FileObj) (h : String) (r : FileObj)
    (hdist : hashesDistinct l) (hr : r ∈ l) (hh : r.fileHash = h) :
    (l.filter fun f => f.fileHash == h).length = 1 := by
  induction l with
  | nil => simp at hr
  | cons a rest ih =>
    simp only [hashesDistinct, List.pairwise_cons] at hdist
    obtain ⟨ha, hrest⟩ := hdist
    rcases List.mem_cons.mp hr with heq | hmem
    · subst heq
      rw [List.filter_cons, if_pos (by simp [hh])]
      have hnil : rest.filter (fun f => f.fileHash == h) = [] := by
        apply List.filter_eq_nil_iff.mpr
        intro b hb
        have hne : b.fileHash ≠ h := fun hbh => (ha b hb) (by rw [hh, hbh])
        simp [hne]
      rw [hnil]
      rfl
    · have hane : ¬ ((a.fileHash == h) = true) := by
        have hra := ha r hmem
        simp only [beq_iff_eq]
        exact fun hah => hra (by rw [hah, hh])
      rw [List.filter_cons, if_neg hane]
      exact ih hrest hmem

/-- C2: after an encrypt run on a source tree in which the dirents at
positions i and j are files with byte-identical content, the two
corresponding PathEntries reference the same objectId, the manifest holds
exactly one FileObject for that content hash, and content hashes are
pairwise distinct across all recorded FileObjects. -/
theorem dedup_invariant (hashF : List Nat → String) (uuidGen pwdGen : Nat → String)
    (prev : FSDirectory) (tree : List SrcDirent) (i j : Nat) (p₁ p₂ : String)
    (c : List Nat) (hij : i < j)
    (hi : tree[i]? = some (.file p₁ c)) (hj : tree[j]? = some (.file p₂ c)) :
    (∃ fid,
      (encryptRun hashF uuidGen pwdGen prev tree).fsd.dirents[i]? =
        some ⟨p₁, some fid⟩ ∧
      (encryptRun hashF uuidGen pwdGen prev tree).fsd.dirents[j]? =
        some ⟨p₂, some fid⟩ ∧
      ((encryptRun hashF uuidGen pwdGen prev tree).fsd.files.filter
        fun f => f.fileHash == hashF c).length = 1) ∧
    hashesDistinct (encryptRun hashF uuidGen pwdGen prev tree).fsd.files := by
  have hlt : i < j := hij
  have hdist : hashesDistinct (encryptRun hashF uuidGen pwdGen prev tree).fsd.files :=
    hashesDistinct_run hashF uuidGen pwdGen prev tree {} (by simp [hashesDistinct])
  obtain ⟨r₁, hr1f, hr1d⟩ := run_file_entry hashF uuidGen pwdGen prev tree {} i p₁ c hi
  obtain ⟨r₂, hr2f, hr2d⟩ := run_file_entry hashF uuidGen pwdGen prev tree {} j p₂ c hj
  rw [hr1f] at hr2f
  have hrr : r₁ = r₂ := Option.some.inj hr2f
  subst hrr
  refine ⟨⟨r₁.fileId, ?_, ?_, ?_⟩, hdist⟩
  · simp only [encryptRun]
    simpa using hr1d
  · simp only [encryptRun]
    simpa using hr2d
  · have hmem : r₁ ∈ (encryptRun hashF uuidGen pwdGen prev tree).fsd.files :=
      List.mem_of_find?_eq_some hr1f
    have hh : r₁.fileHash = hashF c := by
      have hp := List.find?_some hr1f
      simpa using hp
    exact filter_hash_single _ _ _ hdist hmem hh

/-- Witness for C2 on a concrete two-file tree with identical content. -/
theorem dedup_invariant_witness :
    (∃ fid,
      (encryptRun (fun _ => "h") (fun n => toString n) (fun _ => "p") {}
        [.file "a" [1], .file "b" [1]]).fsd.dirents[0]? = some ⟨"a", some fid⟩ ∧
      (encryptRun (fun _ => "h") (fun n => toString n) (fun _ => "p") {}
        [.file "a" [1], .file "b" [1]]).fsd.dirents[1]? = some ⟨"b", some fid⟩ ∧
      ((encryptRun (fun _ => "h") (fun n => toString n) (fun _ => "p") {}
        [.file "a" [1], .file "b" [1]]).fsd.files.filter
        fun f => f.fileHash == (fun _ : List Nat => "h") [1]).length = 1) ∧
    hashesDistinct (encryptRun (fun _ => "h") (fun n => toString n) (fun _ => "p") {}
      [.file "a" [1], .file "b" [1]]).fsd.files :=
  dedup_invariant (fun _ => "h") (fun n => toString n) (fun _ => "p") {}
    [.file "a" [1], .file "b" [1]] 0 1 "a" "b" [1] (by decide) (by decide) (by decide)

/-- C5: on a session-manifest miss, a content hash already present in the
previous snapshot is carried forward — no encryption runs (the Bool
component is false) and the snapshot's objectId and secret are reused in
the recorded FileObject; when the previous snapshot also misses, a fresh
objectId and secret are drawn from the supplies, the counter advances, and
the file is encrypted (the Bool component is true). -/
theorem encryptFile_carry_forward (hashF : List Nat → String)
    (uuidGen pwdGen : Nat → String) (prev : FSDirectory) (st : EncState)
    (content : List Nat) (f : FileObj)
    (hcur : st.fsd.findFileByHash (hashF content) = none) :
    (prev.findFileByHash (hashF content) = some f →
      encryptFile hashF uuidGen pwdGen prev st content =
        (⟨f.fileId, some ⟨f.fileId, hashF content, f.pwd⟩⟩, st.ctr, false)) ∧
    (prev.findFileByHash (hashF content) = none →
      encryptFile hashF uuidGen pwdGen prev st content =
        (⟨uuidGen st.ctr, some ⟨uuidGen st.ctr, hashF content, pwdGen st.ctr⟩⟩,
          st.ctr + 1, true)) := by
  have hcur' : List.find? (fun x => x.fileHash == hashF content) st.fsd.files = none :=
    hcur
  refine ⟨fun hp => ?_, fun hp => ?_⟩
  · have hp' : List.find? (fun x => x.fileHash == hashF content) prev.files = some f := hp
    simp [encryptFile, getFileData, FSDirectory.findFileByHash, hcur', hp']
  · have hp' : List.find? (fun x => x.fileHash == hashF content) prev.files = none := hp
    simp [encryptFile, getFileData, FSDirectory.findFileByHash, hcur', hp']

/-- Witness for C5: carry-forward reuse at a concrete snapshot. -/
theorem encryptFile_carry_forward_witness :
    encryptFile (fun _ => "h") (fun n => toString n) (fun _ => "p")
      ⟨[], [⟨"X", "h", "s"⟩]⟩ {} [1] =
      (⟨"X", some ⟨"X", "h", "s"⟩⟩, 0, false) :=
  (encryptFile_carry_forward (fun _ => "h") (fun n => toString n) (fun _ => "p")
    ⟨[], [⟨"X", "h", "s"⟩]⟩ {} [1] ⟨"X", "h", "s"⟩ (by decide)).1 (by decide)

/-- C3 counterexample: a current manifest and a loaded snapshot whose
dirents agree while their files differ; the serialized content differs, yet
the write guard does not fire (only dirents are compared). -/
theorem manifestWrite_ignores_files :
    manifestWriteNeeded ⟨[⟨"a", some "X"⟩], [⟨"X", "h", "p"⟩]⟩
      (FSDirectory.dirents ⟨[⟨"a", some "X"⟩], []⟩) = false ∧
    FSDirectory.files ⟨[⟨"a", some "X"⟩], [⟨"X", "h", "p"⟩]⟩ ≠
      FSDirectory.files ⟨[⟨"a", some "X"⟩], []⟩ := by
  constructor <;> decide

/-- C3 (amended): at the end of an encrypt run the manifest is re-encrypted
and written iff the serialized dirents sequence differs from the one loaded
at the start; the files sequence does not enter the comparison. -/
theorem manifestWriteNeeded_spec (fsd : FSDirectory) (ds : List Dirent)
    (fl : List FileObj) :
    (manifestWriteNeeded fsd ds = true ↔ ds ≠ fsd.dirents) ∧
    manifestWriteNeeded ⟨fsd.dirents, fl⟩ ds = manifestWriteNeeded fsd ds := by
  constructor
  · simp [manifestWriteNeeded, FSDirectory.equals]
  · rfl

/-- C6: the obsolete entries are exactly the previous snapshot's entries
whose (path, objectId) pair does not occur in the current manifest, and a
blob identifier is deleted from the store precisely when some obsolete file
entry carries it and no FileObject of the current manifest references it. -/
theorem obsolete_deletion_spec (fsd prev : FSDirectory) (d : Dirent) (fid : String) :
    (d ∈ fsd.getObsoleteDirents prev ↔
      d ∈ prev.dirents ∧ ¬ ∃ e ∈ fsd.dirents, e.path = d.path ∧ e.fileId = d.fileId) ∧
    (fid ∈ removeObsoleteDirents fsd prev ↔
      (∃ d₀ ∈ fsd.getObsoleteDirents prev, d₀.fileId = some fid) ∧
      ∀ f ∈ fsd.files, f.fileId ≠ fid) := by
  constructor
  · simp only [FSDirectory.getObsoleteDirents, List.mem_filter, Bool.not_eq_eq_eq_not,
      Bool.not_true, List.any_eq_false, Bool.and_eq_true, beq_iff_eq, not_and]
    constructor
    · rintro ⟨hmem, hall⟩
      refine ⟨hmem, ?_⟩
      rintro ⟨e, he, hpe, hfe⟩
      exact hall e he hpe hfe
    · rintro ⟨hmem, hnone⟩
      refine ⟨hmem, ?_⟩
      intro e he hpe hfe
      exact hnone ⟨e, he, hpe, hfe⟩
  · simp only [removeObsoleteDirents, List.mem_filterMap]
    constructor
    · rintro ⟨d₀, hd₀, hf⟩
      cases hfid : d₀.fileId with
      | none => rw [hfid] at hf; simp at hf
      | some x =>
        rw [hfid] at hf
        simp only [Option.isNone_iff_eq_none] at hf
        by_cases hfound : fsd.findFileById x = none
        · rw [if_pos hfound] at hf
          have hx : x = fid := Option.some.inj hf
          subst hx
          refine ⟨⟨d₀, hd₀, hfid⟩, ?_⟩
          intro f hfmem
          have hb := List.find?_eq_none.mp hfound f hfmem
          simpa using hb
        · rw [if_neg hfound] at hf
          cases hf
    · rintro ⟨⟨d₀, hd₀, hfid⟩, hnoref⟩
      refine ⟨d₀, hd₀, ?_⟩
      rw [hfid]
      have hfound : fsd.findFileById fid = none := by
        apply List.find?_eq_none.mpr
        intro f hfmem
        simp [hnoref f hfmem]
      simp [hfound]

/-! Part: Loading the manifest and absent sources (C7) -/

/-- The on-disk store, as a map from paths to present blobs. -/
def Store : Type := String → Option (List Nat)

/-- Source `path.join` at the level relevant here. -/
def pathJoin (dir name : String) : String := dir ++ "/" ++ name

/-- Source `defaultFileName = getNilUuid()`: the sentinel blob name. -/
def defaultFileName : String := ⟨getNilUuid⟩

/-- Source `decryptFileToStream(srcFile, writeStream)` observed as delivered bytes:
an absent source resolves immediately and delivers nothing; a present blob
is fed through the decipher-and-unzip pipeline, abstracted as `dec`. -/
def decryptFileToStream (dec : List Nat → List Nat) (store : Store)
    (srcFile : String) : List Nat :=
  match store srcFile with
  | none => []
  | some blob => dec blob

/-- The decrypted `{ dirents, files }` structure of a manifest blob. -/
structure Entries where
  dirents : List Dirent
  files : List FileObj

/-- Source `decryptFileToJson(srcFile)`: `data && JSON.parse(data)` — an empty
drained string is returned as an absent value, otherwise the bytes are
parsed (parsing abstracted as `parse`). -/
def decryptFileToJson (dec : List Nat → List Nat) (parse : List Nat → Entries)
    (store : Store) (srcFile : String) : Option Entries :=
  let data := decryptFileToStream dec store srcFile
  if data.isEmpty then none else some (parse data)

/-- Source `FSDirectory.loadEntries(encDir, pwd)`: decrypt the sentinel blob to
JSON and copy its keys onto the manifest; when the result is absent the
manifest keeps its fields. -/
def loadEntries (dec : List Nat → List Nat) (parse : List Nat → Entries)
    (store : Store) (fsd : FSDirectory) (encDir : String) : FSDirectory :=
  match decryptFileToJson dec parse store (pathJoin encDir defaultFileName) with
  | none => fsd
  | some e => { dirents := e.dirents, files := e.files }

/-- C7: a missing source path yields an empty or absent result, not an
error — the stream variant delivers no bytes, the JSON variant returns an
absent value, and loading the manifest from a store without the sentinel
blob leaves dirents and files empty. -/
theorem absent_source_empty (dec : List Nat → List Nat) (parse : List Nat → Entries)
    (store : Store) (encDir srcFile : String)
    (h1 : store srcFile = none)
    (h2 : store (pathJoin encDir defaultFileName) = none) :
    decryptFileToStream dec store srcFile = [] ∧
    decryptFileToJson dec parse store srcFile = none ∧
    (loadEntries dec parse store {} encDir).dirents = [] ∧
    (loadEntries dec parse store {} encDir).files = [] := by
  refine ⟨?_, ?_, ?_, ?_⟩ <;>
    simp [decryptFileToStream, decryptFileToJson, loadEntries, h1, h2]

/-- Witness for C7 on the everywhere-empty store. -/
theorem absent_source_empty_witness :
    decryptFileToStream id (fun _ => none) "s" = [] ∧
    decryptFileToJson id (fun _ => ⟨[], []⟩) (fun _ => none) "s" = none ∧
    (loadEntries id (fun _ => ⟨[], []⟩) (fun _ => none) {} "e").dirents = [] ∧
    (loadEntries id (fun _ => ⟨[], []⟩) (fun _ => none) {} "e").files = [] :=
  absent_source_empty id (fun _ => ⟨[], []⟩) (fun _ => none) "e" "s" rfl rfl

end Cryptdir
